import Mathlib

set_option maxHeartbeats 1000000

/-!
Shallow embedding of the ORF-detection core of `orf_analyzer.py`
(`reverse_complement`, `STOP_CODONS`, `find_orfs`) together with proofs of the
specified properties.  Sequences are modelled as `List Char`, Python's `str`
indexing/slicing by `List.drop`/`List.take`, the arbitrary-precision `min_len`
integer by `Int`, and Python's stable `sorted` by `List.mergeSort`.
-/

namespace OrfAnalyzer

/-- Watson-Crick complement of one character, as realised by
`str.translate(str.maketrans("ACGT", "TGCA"))`: `translate` leaves every
character outside the table unchanged. -/
def comp (c : Char) : Char :=
  if c = 'A' then 'T'
  else if c = 'C' then 'G'
  else if c = 'G' then 'C'
  else if c = 'T' then 'A'
  else c

/-- `reverse_complement(seq)`, i.e. `seq.translate(_COMP)[::-1]`. -/
def reverse_complement (seq : List Char) : List Char :=
  (seq.map comp).reverse

/-- `STOP_CODONS = {"TAA", "TAG", "TGA"}`. -/
def STOP_CODONS : List (List Char) := [['T','A','A'], ['T','A','G'], ['T','G','A']]

/-- The start codon `"ATG"`. -/
def ATG : List Char := ['A', 'T', 'G']

/-- The Python slice `working_seq[i:i+3]` (clamped at the end of the string,
exactly as Python slicing clamps). -/
def codon (w : List Char) (i : Nat) : List Char :=
  (w.drop i).take 3

/-- One entry of the `orfs` list built by `find_orfs`: the dict
`{"strand": ..., "frame": ..., "start": ..., "end": ..., "length": ...}`. -/
structure OrfCandidate where
  strand : String
  frame : Nat
  start : Nat
  «end» : Nat
  length : Nat
deriving DecidableEq, Repr

/-- The inner loop `for j in range(i, len(working_seq) - 2, 3)` of `find_orfs`:
the first in-frame index `j` at or after the argument whose codon is a stop
codon, or `none` when the `for` runs to completion without `break` (the
`for`/`else` arm).  The bound `j < len - 2` of `range` is the guard
`j + 3 ≤ len`.  `fuel` bounds the recursion; all callers pass `w.length + 1`,
which exceeds the number of iterations the Python loop can perform. -/
def findStop (fuel : Nat) (w : List Char) (j : Nat) : Option Nat :=
  match fuel with
  | 0 => none
  | fuel + 1 =>
    if j + 3 ≤ w.length then
      if codon w j ∈ STOP_CODONS then some j
      else findStop fuel w (j + 3)
    else none

/-- The `while i + 3 <= len(working_seq)` walk of `find_orfs` for one strand and
one frame, started at index `i`.  When the codon at `i` is `ATG` and the inner
loop finds its first stop at `j`, the code appends a candidate when
`orf_len >= min_len`, sets `i = j + 3`, breaks out of the inner loop, and then
the unconditional `i += 3` closing the `while` body runs as well, so the walk
continues from `j + 3 + 3`.  When the inner loop finds no stop, its `else:`
clause `break`s out of the `while` loop entirely.  `fuel` bounds the recursion;
all callers pass `seq.length + 1`, which exceeds the number of `while`
iterations the Python loop can perform. -/
def scanFrame (fuel : Nat) (strand : String) (frame : Nat) (seqLen : Nat)
    (minLen : Int) (w : List Char) (i : Nat) : List OrfCandidate :=
  match fuel with
  | 0 => []
  | fuel + 1 =>
    if i + 3 ≤ w.length then
      if codon w i = ATG then
        match findStop (w.length + 1) w i with
        | some j =>
          (if minLen ≤ ((j + 3 - i : Nat) : Int) then
            [{ strand := strand, frame := frame + 1,
               start := if strand = "+" then i + 1 else seqLen - (j + 3) + 1,
               «end» := if strand = "+" then j + 3 else seqLen - i,
               length := j + 3 - i }]
          else []) ++ scanFrame fuel strand frame seqLen minLen w (j + 3 + 3)
        | none => []
      else scanFrame fuel strand frame seqLen minLen w (i + 3)
    else []

/-- The `orfs` list of `find_orfs` as accumulated by the two nested loops
(`for strand, working_seq in [("+", seq), ("-", rc_seq)]` outside,
`for frame in range(3)` inside), before the final `sorted` call. -/
def emitted (seq : List Char) (minLen : Int) : List OrfCandidate :=
  scanFrame (seq.length + 1) "+" 0 seq.length minLen seq 0 ++
  scanFrame (seq.length + 1) "+" 1 seq.length minLen seq 1 ++
  scanFrame (seq.length + 1) "+" 2 seq.length minLen seq 2 ++
  scanFrame (seq.length + 1) "-" 0 seq.length minLen (reverse_complement seq) 0 ++
  scanFrame (seq.length + 1) "-" 1 seq.length minLen (reverse_complement seq) 1 ++
  scanFrame (seq.length + 1) "-" 2 seq.length minLen (reverse_complement seq) 2

/-- The comparison realising `sorted(orfs, key=lambda x: -x["length"])`:
length descending. -/
def lenDesc (a b : OrfCandidate) : Bool := b.length ≤ a.length

/-- `find_orfs(seq, min_len)`: the accumulated candidates, sorted by length
descending.  Python's `sorted` is a stable sort, modelled by the (stable)
`List.mergeSort`. -/
def find_orfs (seq : List Char) (minLen : Int) : List OrfCandidate :=
  (emitted seq minLen).mergeSort lenDesc

/-- The complement table is self-inverse on every character: `A↔T` and `C↔G`
swap back, and any other character is fixed. -/
theorem comp_comp (c : Char) : comp (comp c) = c := by
  by_cases h1 : c = 'A'
  · subst h1; decide
  by_cases h2 : c = 'C'
  · subst h2; decide
  by_cases h3 : c = 'G'
  · subst h3; decide
  by_cases h4 : c = 'T'
  · subst h4; decide
  simp [comp, h1, h2, h3, h4]

/-- Characters outside {A, C, G, T} pass through `comp` unchanged. -/
theorem comp_of_not_acgt (c : Char) (h1 : c ≠ 'A') (h2 : c ≠ 'C') (h3 : c ≠ 'G')
    (h4 : c ≠ 'T') : comp c = c := by
  simp [comp, h1, h2, h3, h4]

/-- `reverse_complement` preserves length. -/
theorem length_reverse_complement (S : List Char) :
    (reverse_complement S).length = S.length := by
  simp [reverse_complement]

/-- Index law of `reverse_complement`: entry `i` of the result is the
complement of entry `N - 1 - i` of the input. -/
theorem reverse_complement_getElem? (S : List Char) (i : Nat) (h : i < S.length) :
    (reverse_complement S)[i]? = S[S.length - 1 - i]?.map comp := by
  unfold reverse_complement
  rw [List.getElem?_reverse (by simpa using h), List.getElem?_map]
  simp

/-- Soundness of the inner stop-codon search: a returned index is an in-frame
stop-codon position at or after the starting index. -/
theorem findStop_sound {w : List Char} :
    ∀ {fuel i j : Nat}, findStop fuel w i = some j →
      i ≤ j ∧ 3 ∣ (j - i) ∧ j + 3 ≤ w.length ∧ codon w j ∈ STOP_CODONS := by
  intro fuel
  induction fuel with
  | zero => intro i j h; simp [findStop] at h
  | succ fuel ih =>
    intro i j h
    rw [findStop] at h
    split at h
    case isTrue hguard =>
      split at h
      case isTrue hstop =>
        obtain rfl : i = j := Option.some.inj h
        exact ⟨Nat.le_refl _, by omega, hguard, hstop⟩
      case isFalse =>
        obtain ⟨h1, h2, h3, h4⟩ := ih h
        exact ⟨by omega, by omega, h3, h4⟩
    case isFalse => simp at h

/-- Completeness of the inner stop-codon search: when `j` is the first in-frame
stop-codon position at or after `i` and the fuel covers the remaining walk, the
search returns exactly `j`. -/
theorem findStop_first {w : List Char} :
    ∀ {fuel i j : Nat}, codon w j ∈ STOP_CODONS → i ≤ j → 3 ∣ (j - i) →
      j + 3 ≤ w.length →
      (∀ j', i ≤ j' → 3 ∣ (j' - i) → j' + 3 ≤ w.length →
        codon w j' ∈ STOP_CODONS → j ≤ j') →
      w.length ≤ i + 3 * fuel → findStop fuel w i = some j := by
  intro fuel
  induction fuel with
  | zero => intro i j _ hij _ hjlen _ hfuel; omega
  | succ fuel ih =>
    intro i j hstop hij hdvd hjlen hfirst hfuel
    rw [findStop]
    rw [if_pos (by omega)]
    by_cases hi : codon w i ∈ STOP_CODONS
    · rw [if_pos hi]
      have : j ≤ i := hfirst i (Nat.le_refl i) (by omega) (by omega) hi
      have : j = i := by omega
      simp [this]
    · rw [if_neg hi]
      have hne : j ≠ i := by rintro rfl; exact hi hstop
      have hij3 : i + 3 ≤ j := by omega
      exact ih hstop hij3 (by omega) hjlen
        (fun j' h1 h2 h3 h4 => hfirst j' (by omega) (by omega) h3 h4) (by omega)

/-- Any element produced by the per-frame walk arises from an `ATG` codon at an
in-frame index `i` and an in-frame stop codon at `j ≥ i`, passes the `min_len`
test, and carries exactly the fields the loop body assigns. -/
theorem scanFrame_mem {strand : String} {frame seqLen : Nat} {minLen : Int}
    {w : List Char} :
    ∀ {fuel i₀ : Nat} {c : OrfCandidate},
      c ∈ scanFrame fuel strand frame seqLen minLen w i₀ →
      ∃ i j, codon w i = ATG ∧ codon w j ∈ STOP_CODONS ∧ i ≤ j ∧ 3 ∣ (j - i) ∧
        j + 3 ≤ w.length ∧ minLen ≤ ((j + 3 - i : Nat) : Int) ∧
        c = { strand := strand, frame := frame + 1,
              start := if strand = "+" then i + 1 else seqLen - (j + 3) + 1,
              «end» := if strand = "+" then j + 3 else seqLen - i,
              length := j + 3 - i } := by
  intro fuel
  induction fuel with
  | zero => intro i₀ c h; simp [scanFrame] at h
  | succ fuel ih =>
    intro i₀ c h
    rw [scanFrame] at h
    split at h
    case isTrue hguard =>
      split at h
      case isTrue hatg =>
        split at h
        case h_1 j heq =>
          rcases List.mem_append.mp h with hl | hr
          · obtain ⟨hij, hdvd, hjlen, hstop⟩ := findStop_sound heq
            split at hl
            case isTrue hmin =>
              rcases List.mem_singleton.mp hl with rfl
              exact ⟨i₀, j, hatg, hstop, hij, hdvd, hjlen, hmin, rfl⟩
            case isFalse => simp at hl
          · exact ih hr
        case h_2 => simp at h
      case isFalse => exact ih h
    case isFalse => simp at h

/-- Membership in the pre-sort `orfs` list, split by strand: every accumulated
candidate comes from one of the six (strand, frame) scans — against the forward
sequence for strand `"+"`, against the reverse complement for strand `"-"` —
and carries exactly the fields the loop body assigns for that strand. -/
theorem mem_emitted {S : List Char} {L : Int} {c : OrfCandidate}
    (hc : c ∈ emitted S L) :
    ∃ frame i j,
      (codon S i = ATG ∧ codon S j ∈ STOP_CODONS ∧ i ≤ j ∧ 3 ∣ (j - i) ∧
        j + 3 ≤ S.length ∧ L ≤ ((j + 3 - i : Nat) : Int) ∧
        c = ⟨"+", frame + 1, i + 1, j + 3, j + 3 - i⟩) ∨
      (codon (reverse_complement S) i = ATG ∧
        codon (reverse_complement S) j ∈ STOP_CODONS ∧ i ≤ j ∧ 3 ∣ (j - i) ∧
        j + 3 ≤ S.length ∧ L ≤ ((j + 3 - i : Nat) : Int) ∧
        c = ⟨"-", frame + 1, S.length - (j + 3) + 1, S.length - i, j + 3 - i⟩) := by
  have hrc : (reverse_complement S).length = S.length := length_reverse_complement S
  unfold emitted at hc
  rcases List.mem_append.mp hc with hc | hc
  case inr =>
    obtain ⟨i, j, h1, h2, h3, h4, h5, h6, h7⟩ := scanFrame_mem hc
    exact ⟨2, i, j, Or.inr ⟨h1, h2, h3, h4, hrc ▸ h5, h6, h7⟩⟩
  rcases List.mem_append.mp hc with hc | hc
  case inr =>
    obtain ⟨i, j, h1, h2, h3, h4, h5, h6, h7⟩ := scanFrame_mem hc
    exact ⟨1, i, j, Or.inr ⟨h1, h2, h3, h4, hrc ▸ h5, h6, h7⟩⟩
  rcases List.mem_append.mp hc with hc | hc
  case inr =>
    obtain ⟨i, j, h1, h2, h3, h4, h5, h6, h7⟩ := scanFrame_mem hc
    exact ⟨0, i, j, Or.inr ⟨h1, h2, h3, h4, hrc ▸ h5, h6, h7⟩⟩
  rcases List.mem_append.mp hc with hc | hc
  case inr =>
    obtain ⟨i, j, h1, h2, h3, h4, h5, h6, h7⟩ := scanFrame_mem hc
    exact ⟨2, i, j, Or.inl ⟨h1, h2, h3, h4, h5, h6, h7⟩⟩
  rcases List.mem_append.mp hc with hc | hc
  case inr =>
    obtain ⟨i, j, h1, h2, h3, h4, h5, h6, h7⟩ := scanFrame_mem hc
    exact ⟨1, i, j, Or.inl ⟨h1, h2, h3, h4, h5, h6, h7⟩⟩
  obtain ⟨i, j, h1, h2, h3, h4, h5, h6, h7⟩ := scanFrame_mem hc
  exact ⟨0, i, j, Or.inl ⟨h1, h2, h3, h4, h5, h6, h7⟩⟩

/-- C3: for every sequence `S` and every `min_len` `L`, every `OrfCandidate`
returned by `find_orfs(S, L)` satisfies `length % 3 == 0`, `length >= L`,
`1 <= start <= end <= len(S)`, and `length = end - start + 1` with `length` a
positive multiple of 3. -/
theorem C3_candidate_invariants (S : List Char) (L : Int) (c : OrfCandidate)
    (hc : c ∈ find_orfs S L) :
    c.length % 3 = 0 ∧ L ≤ (c.length : Int) ∧ 1 ≤ c.start ∧ c.start ≤ c.«end» ∧
      c.«end» ≤ S.length ∧ c.length = c.«end» - c.start + 1 ∧ 0 < c.length := by
  have hc' : c ∈ emitted S L := List.mem_mergeSort.mp hc
  obtain ⟨frame, i, j, h | h⟩ := mem_emitted hc' <;>
    obtain ⟨h1, h2, h3, h4, h5, h6, h7⟩ := h
  · have e1 : c.length = j + 3 - i := by rw [h7]
    have e2 : c.start = i + 1 := by rw [h7]
    have e3 : c.«end» = j + 3 := by rw [h7]
    exact ⟨by omega, by rw [e1]; exact h6, by omega, by omega, by omega, by omega,
      by omega⟩
  · have e1 : c.length = j + 3 - i := by rw [h7]
    have e2 : c.start = S.length - (j + 3) + 1 := by rw [h7]
    have e3 : c.«end» = S.length - i := by rw [h7]
    exact ⟨by omega, by rw [e1]; exact h6, by omega, by omega, by omega, by omega,
      by omega⟩

/-- C5: every reverse-strand candidate returned by `find_orfs` arises from a
start at strand-relative index `i` and a stop at strand-relative index `j` on
the reverse complement, and its reported forward-strand coordinates are exactly
`end = N - i` and `start = N - (j+3) + 1` (the 1-based reflection
`p ↦ N - p + 1`). -/
theorem C5_reverse_strand_coordinates (S : List Char) (L : Int) (c : OrfCandidate)
    (hc : c ∈ find_orfs S L) (hs : c.strand = "-") :
    ∃ i j, codon (reverse_complement S) i = ATG ∧
      codon (reverse_complement S) j ∈ STOP_CODONS ∧ i ≤ j ∧ 3 ∣ (j - i) ∧
      j + 3 ≤ S.length ∧ c.«end» = S.length - i ∧
      c.start = S.length - (j + 3) + 1 ∧ c.length = j + 3 - i := by
  have hc' : c ∈ emitted S L := List.mem_mergeSort.mp hc
  obtain ⟨frame, i, j, h | h⟩ := mem_emitted hc' <;>
    obtain ⟨h1, h2, h3, h4, h5, h6, h7⟩ := h
  · have e0 : c.strand = "+" := by rw [h7]
    rw [e0] at hs
    exact absurd hs (by decide)
  · exact ⟨i, j, h1, h2, h3, h4, h5, by rw [h7], by rw [h7], by rw [h7]⟩

/-- C6: `reverse_complement` is an involution on all strings, including strings
containing non-ACGT characters. -/
theorem C6_reverse_complement_involution (S : List Char) :
    reverse_complement (reverse_complement S) = S := by
  unfold reverse_complement
  rw [List.map_reverse, List.reverse_reverse, List.map_map]
  rw [show comp ∘ comp = id from funext comp_comp, List.map_id]

/-- C7: `reverse_complement` preserves length, its entry at index `i` is the
Watson-Crick complement of the input's entry at index `N - 1 - i`, and any
character outside {A, C, G, T} is mapped through `comp` unchanged (the
function is total). -/
theorem C7_reverse_complement_pointwise (S : List Char) :
    (reverse_complement S).length = S.length ∧
      (∀ i, i < S.length →
        (reverse_complement S)[i]? = S[S.length - 1 - i]?.map comp) ∧
      (∀ c : Char, c ≠ 'A' → c ≠ 'C' → c ≠ 'G' → c ≠ 'T' → comp c = c) :=
  ⟨length_reverse_complement S, fun i h => reverse_complement_getElem? S i h,
    fun c h1 h2 h3 h4 => comp_of_not_acgt c h1 h2 h3 h4⟩

/-- Splitting a list at a predicate boundary is unique: if the same list is
written in two ways as (elements all failing `P`) ++ (elements all satisfying
`P`), the two splits agree componentwise. -/
theorem append_eq_append_sep {α : Type} {P : α → Prop} :
    ∀ {x₁ x₂ y₁ y₂ : List α}, (∀ a ∈ x₁, ¬ P a) → (∀ a ∈ x₂, ¬ P a) →
      (∀ a ∈ y₁, P a) → (∀ a ∈ y₂, P a) → x₁ ++ y₁ = x₂ ++ y₂ →
      x₁ = x₂ ∧ y₁ = y₂ := by
  intro x₁
  induction x₁ with
  | nil =>
    intro x₂ y₁ y₂ _ hx₂ hy₁ _ heq
    cases x₂ with
    | nil => exact ⟨rfl, heq⟩
    | cons b t₂ =>
      exfalso
      have hb : b ∈ ([] : List α) ++ y₁ := by
        rw [heq]; exact List.mem_append_left _ (List.mem_cons_self _ _)
      exact hx₂ b (List.mem_cons_self _ _) (hy₁ b (by simpa using hb))
  | cons a t₁ ih =>
    intro x₂ y₁ y₂ hx₁ hx₂ hy₁ hy₂ heq
    cases x₂ with
    | nil =>
      exfalso
      have ha : a ∈ (a :: t₁) ++ y₁ := List.mem_append_left _ (List.mem_cons_self _ _)
      rw [heq] at ha
      exact hx₁ a (List.mem_cons_self _ _) (hy₂ a (by simpa using ha))
    | cons b t₂ =>
      rw [List.cons_append, List.cons_append] at heq
      obtain ⟨rfl, heq'⟩ := List.cons.inj heq
      obtain ⟨h1, h2⟩ := ih (fun x hx => hx₁ x (List.mem_cons_of_mem _ hx))
        (fun x hx => hx₂ x (List.mem_cons_of_mem _ hx)) hy₁ hy₂ heq'
      exact ⟨by rw [h1], h2⟩

/-- A stable sort commutes with `filter`: filtering before or after
`List.mergeSort` yields the same list. -/
theorem filter_mergeSort_comm {α : Type} (le : α → α → Bool)
    (htrans : ∀ a b c, le a b → le b c → le a c)
    (htotal : ∀ a b, le a b || le b a) (p : α → Bool) :
    ∀ l : List α, (l.mergeSort le).filter p = (l.filter p).mergeSort le := by
  intro l
  induction l with
  | nil => simp
  | cons a l ih =>
    obtain ⟨l₁, l₂, h₁, h₂, h₃⟩ := List.mergeSort_cons htrans htotal a l
    have hs : ((a :: l).mergeSort le).Pairwise (fun x y => le x y) :=
      List.sorted_mergeSort htrans htotal (a :: l)
    rw [h₁] at hs
    have hl₂ : ∀ b ∈ l₂, le a b := fun b hb =>
      (List.pairwise_cons.mp (List.pairwise_append.mp hs).2.1).1 b hb
    by_cases hp : p a
    · obtain ⟨m₁, m₂, g₁, g₂, g₃⟩ := List.mergeSort_cons htrans htotal a (l.filter p)
      have gs : ((a :: l.filter p).mergeSort le).Pairwise (fun x y => le x y) :=
        List.sorted_mergeSort htrans htotal _
      rw [g₁] at gs
      have hm₂ : ∀ b ∈ m₂, le a b := fun b hb =>
        (List.pairwise_cons.mp (List.pairwise_append.mp gs).2.1).1 b hb
      have key : l₁.filter p ++ l₂.filter p = m₁ ++ m₂ := by
        rw [← List.filter_append, ← h₂, ih, g₂]
      have sep := append_eq_append_sep (P := fun x => le a x = true)
        (fun b hb => by simpa using h₃ b (List.mem_of_mem_filter hb))
        (fun b hb => by simpa using g₃ b hb)
        (fun b hb => hl₂ b (List.mem_of_mem_filter hb)) hm₂ key
      rw [h₁, List.filter_cons_of_pos hp, g₁, List.filter_append,
        List.filter_cons_of_pos hp, sep.1, sep.2]
    · rw [h₁, List.filter_cons_of_neg hp, List.filter_append,
        List.filter_cons_of_neg hp, ← List.filter_append, ← h₂, ih]

/-- `lenDesc` is transitive. -/
theorem lenDesc_trans : ∀ a b c : OrfCandidate, lenDesc a b → lenDesc b c →
    lenDesc a c := by
  intro a b c
  simp only [lenDesc, decide_eq_true_eq]
  omega

/-- `lenDesc` is total. -/
theorem lenDesc_total : ∀ a b : OrfCandidate, lenDesc a b || lenDesc b a := by
  intro a b
  simp only [lenDesc, Bool.or_eq_true, decide_eq_true_eq]
  omega

/-- C4: the list returned by `find_orfs` is sorted by length descending, and
candidates of equal length appear in scan-emission order (the order of the
pre-sort `orfs` list: forward frames 1,2,3 then reverse frames 1,2,3, each
frame's hits left to right) — the sort is stable over the emission order. -/
theorem C4_sorted_and_stable (S : List Char) (L : Int) :
    (find_orfs S L).Pairwise (fun a b => b.length ≤ a.length) ∧
    ∀ n : Nat, (find_orfs S L).filter (fun c => c.length = n) =
      (emitted S L).filter (fun c => c.length = n) := by
  constructor
  · have h := List.sorted_mergeSort lenDesc_trans lenDesc_total (emitted S L)
    exact h.imp (fun hab => by simpa [lenDesc] using hab)
  · intro n
    rw [show find_orfs S L = (emitted S L).mergeSort lenDesc from rfl,
      filter_mergeSort_comm lenDesc lenDesc_trans lenDesc_total _ (emitted S L)]
    apply List.mergeSort_of_sorted
    apply List.pairwise_of_forall_mem_list
    intro a ha b hb
    have ha' := (List.mem_filter.mp ha).2
    have hb' := (List.mem_filter.mp hb).2
    simp only [decide_eq_true_eq] at ha' hb'
    simp [lenDesc, ha', hb']

/-- The walk and its stop bookkeeping do not depend on `min_len`: raising the
threshold from `L₁` to `L₂` only filters the emitted candidates of one frame's
scan, preserving order. -/
theorem scanFrame_minLen (strand : String) (frame seqLen : Nat) {L₁ L₂ : Int}
    (h : L₁ ≤ L₂) (w : List Char) :
    ∀ fuel i, scanFrame fuel strand frame seqLen L₂ w i =
      (scanFrame fuel strand frame seqLen L₁ w i).filter
        (fun c => L₂ ≤ (c.length : Int)) := by
  intro fuel
  induction fuel with
  | zero => intro i; simp [scanFrame]
  | succ fuel ih =>
    intro i
    simp only [scanFrame]
    by_cases hguard : i + 3 ≤ w.length
    case neg => rw [if_neg hguard, if_neg hguard]; simp
    rw [if_pos hguard, if_pos hguard]
    by_cases hatg : codon w i = ATG
    case neg => rw [if_neg hatg, if_neg hatg]; exact ih (i + 3)
    rw [if_pos hatg, if_pos hatg]
    cases hfs : findStop (w.length + 1) w i with
    | none => simp only [hfs]; rfl
    | some j =>
      simp only [hfs]
      rw [List.filter_append, ← ih (j + 3 + 3)]
      congr 1
      by_cases h2 : L₂ ≤ ((j + 3 - i : Nat) : Int)
      · rw [if_pos h2, if_pos (le_trans h h2)]
        simp [h2]
      · rw [if_neg h2]
        by_cases h1 : L₁ ≤ ((j + 3 - i : Nat) : Int)
        · rw [if_pos h1]; simp [h2]
        · rw [if_neg h1]; simp

/-- The full pre-sort candidate list for threshold `L₂` is the `L₂`-length
filter of the one for a smaller threshold `L₁`. -/
theorem emitted_minLen (S : List Char) {L₁ L₂ : Int} (h : L₁ ≤ L₂) :
    emitted S L₂ = (emitted S L₁).filter (fun c => L₂ ≤ (c.length : Int)) := by
  unfold emitted
  rw [List.filter_append, List.filter_append, List.filter_append,
    List.filter_append, List.filter_append]
  rw [scanFrame_minLen "+" 0 S.length h S (S.length + 1) 0,
    scanFrame_minLen "+" 1 S.length h S (S.length + 1) 1,
    scanFrame_minLen "+" 2 S.length h S (S.length + 1) 2,
    scanFrame_minLen "-" 0 S.length h (reverse_complement S) (S.length + 1) 0,
    scanFrame_minLen "-" 1 S.length h (reverse_complement S) (S.length + 1) 1,
    scanFrame_minLen "-" 2 S.length h (reverse_complement S) (S.length + 1) 2]

/-- C10: `min_len` gates only emission, never the scan path: for `L₁ ≤ L₂`,
`find_orfs(S, L₂)` is `find_orfs(S, L₁)` with every candidate of length `< L₂`
removed, in the same relative order. -/
theorem C10_minLen_only_filters (S : List Char) (L₁ L₂ : Int) (h : L₁ ≤ L₂) :
    find_orfs S L₂ = (find_orfs S L₁).filter (fun c => L₂ ≤ (c.length : Int)) := by
  show (emitted S L₂).mergeSort lenDesc = _
  rw [emitted_minLen S h,
    ← filter_mergeSort_comm lenDesc lenDesc_trans lenDesc_total _ (emitted S L₁)]
  rfl

/-- C9: `find_orfs("ATGAAATAA", 1)` returns exactly one candidate, with
strand `"+"`, frame 1, start 1, end 9, length 9. -/
theorem C9_single_orf_scenario :
    find_orfs ("ATGAAATAA".toList) 1 =
      [{ strand := "+", frame := 1, start := 1, «end» := 9, length := 9 }] := by
  show (emitted ("ATGAAATAA".toList) 1).mergeSort lenDesc = _
  rw [show emitted ("ATGAAATAA".toList) 1 =
    [{ strand := "+", frame := 1, start := 1, «end» := 9, length := 9 }] from rfl]
  exact List.mergeSort_singleton _

/-- C8: a start codon with no in-frame stop before the sequence ends abandons
that (strand, frame) walk entirely — nothing is emitted at or after that
start — and in particular `find_orfs("ATGAAA", 1)` is empty. -/
theorem C8_no_stop_abandons_frame :
    (∀ (strand : String) (frame seqLen : Nat) (minLen : Int) (w : List Char)
      (fuel i : Nat), codon w i = ATG →
      (∀ j, i ≤ j → 3 ∣ (j - i) → j + 3 ≤ w.length → codon w j ∉ STOP_CODONS) →
      scanFrame fuel strand frame seqLen minLen w i = []) ∧
    find_orfs ("ATGAAA".toList) 1 = [] := by
  constructor
  · intro strand frame seqLen minLen w fuel i hatg hnostop
    cases fuel with
    | zero => rfl
    | succ fuel =>
      simp only [scanFrame]
      by_cases hguard : i + 3 ≤ w.length
      · rw [if_pos hguard, if_pos hatg]
        cases hfs : findStop (w.length + 1) w i with
        | none => simp only [hfs]
        | some j =>
          obtain ⟨h1, h2, h3, h4⟩ := findStop_sound hfs
          exact absurd h4 (hnostop j h1 h2 h3)
      · rw [if_neg hguard]
  · show (emitted ("ATGAAA".toList) 1).mergeSort lenDesc = _
    rw [show emitted ("ATGAAA".toList) 1 = [] from rfl]
    exact List.mergeSort_nil

/-- Witness for C8 on `("ATGAAA", min_len 1)`: the forward frame-0 walk is
abandoned at the `ATG` at index 0 (no in-frame stop exists), and the full
result is empty. -/
theorem C8_no_stop_abandons_frame_witness :
    scanFrame 7 "+" 0 6 1 ("ATGAAA".toList) 0 = [] ∧
      find_orfs ("ATGAAA".toList) 1 = [] := by
  refine ⟨C8_no_stop_abandons_frame.1 "+" 0 6 1 ("ATGAAA".toList) 7 0 (by decide)
    ?_, C8_no_stop_abandons_frame.2⟩
  intro j h1 h2 h3
  have hlen : ("ATGAAA".toList).length = 6 := rfl
  have hj : j = 0 ∨ j = 3 := by omega
  rcases hj with rfl | rfl <;> decide

/-- C1 fails on the code: on `"AAATTAATGCCCTAAGGG"` with `min_len = 3` the
result contains no candidate with frame 3, start 9, end 17, length 9. -/
theorem C1_counterexample :
    ({ strand := "+", frame := 3, start := 9, «end» := 17, length := 9 } :
      OrfCandidate) ∉ find_orfs ("AAATTAATGCCCTAAGGG".toList) 3 := by
  intro hmem
  have h : ({ strand := "+", frame := 3, start := 9, «end» := 17, length := 9 } :
      OrfCandidate) ∈ emitted ("AAATTAATGCCCTAAGGG".toList) 3 :=
    List.mem_mergeSort.mp hmem
  rw [show emitted ("AAATTAATGCCCTAAGGG".toList) 3 =
    [{ strand := "+", frame := 1, start := 7, «end» := 15, length := 9 }]
    from rfl] at h
  exact absurd h (by decide)

/-- C1 amended: on `"AAATTAATGCCCTAAGGG"` with `min_len = 3`, `find_orfs`
returns exactly one forward-strand candidate, with frame = 1, start = 7,
end = 15, length = 9, arising from the ATG at 0-based index 6 and the stop
TAA at 0-based index 12 in forward frame 0 (0-based). -/
theorem C1_amended_scenario :
    find_orfs ("AAATTAATGCCCTAAGGG".toList) 3 =
      [{ strand := "+", frame := 1, start := 7, «end» := 15, length := 9 }] ∧
    codon ("AAATTAATGCCCTAAGGG".toList) 6 = ATG ∧
    codon ("AAATTAATGCCCTAAGGG".toList) 12 = ['T', 'A', 'A'] := by
  refine ⟨?_, by decide, by decide⟩
  show (emitted ("AAATTAATGCCCTAAGGG".toList) 3).mergeSort lenDesc = _
  rw [show emitted ("AAATTAATGCCCTAAGGG".toList) 3 =
    [{ strand := "+", frame := 1, start := 7, «end» := 15, length := 9 }] from rfl]
  exact List.mergeSort_singleton _

/-- C2 fails on the code: in `"ATGTAAATGTAA"` (min_len 1) the first ORF's stop
sits at `j = 3`, an `ATG` begins exactly at `j + 3 = 6` with an in-frame stop
at 9, yet no candidate starting there (1-based start 7) is reported: the walk
sets `i = j + 3` and the loop's closing `i += 3` also runs, so the codon at
`j + 3` is never examined as a start. -/
theorem C2_counterexample :
    codon ("ATGTAAATGTAA".toList) 6 = ATG ∧
    codon ("ATGTAAATGTAA".toList) 9 ∈ STOP_CODONS ∧
    ({ strand := "+", frame := 1, start := 7, «end» := 12, length := 6 } :
      OrfCandidate) ∉ find_orfs ("ATGTAAATGTAA".toList) 1 ∧
    find_orfs ("ATGTAAATGTAA".toList) 1 =
      [{ strand := "+", frame := 1, start := 1, «end» := 6, length := 6 }] := by
  have he : find_orfs ("ATGTAAATGTAA".toList) 1 =
      [{ strand := "+", frame := 1, start := 1, «end» := 6, length := 6 }] := by
    show (emitted ("ATGTAAATGTAA".toList) 1).mergeSort lenDesc = _
    rw [show emitted ("ATGTAAATGTAA".toList) 1 =
      [{ strand := "+", frame := 1, start := 1, «end» := 6, length := 6 }] from rfl]
    exact List.mergeSort_singleton _
  refine ⟨by decide, by decide, ?_, he⟩
  rw [he]
  decide

/-- C2 amended: when a start codon at in-frame index `i` finds its first
in-frame stop codon at index `j`, the walk sets `i = j + 3` and then the
loop's closing `i += 3` executes as well, so the scan resumes with the codon
at `j + 3 + 3 = j + 6`; the codon at `j + 3` is never examined as a potential
start. -/
theorem C2_amended_resume_at_j_plus_6 (strand : String) (frame seqLen : Nat)
    (minLen : Int) (w : List Char) (fuel i j : Nat) (hguard : i + 3 ≤ w.length)
    (hatg : codon w i = ATG) (hstop : codon w j ∈ STOP_CODONS) (hij : i ≤ j)
    (hdvd : 3 ∣ (j - i)) (hjlen : j + 3 ≤ w.length)
    (hfirst : ∀ j', i ≤ j' → 3 ∣ (j' - i) → j' + 3 ≤ w.length →
      codon w j' ∈ STOP_CODONS → j ≤ j') :
    scanFrame (fuel + 1) strand frame seqLen minLen w i =
      (if minLen ≤ ((j + 3 - i : Nat) : Int) then
        [{ strand := strand, frame := frame + 1,
           start := if strand = "+" then i + 1 else seqLen - (j + 3) + 1,
           «end» := if strand = "+" then j + 3 else seqLen - i,
           length := j + 3 - i }]
      else []) ++ scanFrame fuel strand frame seqLen minLen w (j + 3 + 3) := by
  have hfs : findStop (w.length + 1) w i = some j :=
    findStop_first hstop hij hdvd hjlen hfirst (by omega)
  simp only [scanFrame]
  rw [if_pos hguard, if_pos hatg, hfs]

/-- Witness for the amended C2 on `"ATGTAA"`: the start at index 0 finds its
first stop at index 3 and the walk resumes at index 9 = 3 + 3 + 3. -/
theorem C2_amended_resume_witness :
    scanFrame 7 "+" 0 6 1 ("ATGTAA".toList) 0 =
      (if (1 : Int) ≤ ((3 + 3 - 0 : Nat) : Int) then
        [{ strand := "+", frame := 0 + 1,
           start := if "+" = "+" then 0 + 1 else 6 - (3 + 3) + 1,
           «end» := if "+" = "+" then 3 + 3 else 6 - 0,
           length := 3 + 3 - 0 }]
      else []) ++ scanFrame 6 "+" 0 6 1 ("ATGTAA".toList) (3 + 3 + 3) := by
  apply C2_amended_resume_at_j_plus_6 "+" 0 6 1 ("ATGTAA".toList) 6 0 3 (by decide)
    (by decide) (by decide) (by omega) (by decide) (by decide)
  intro j' h1 h2 h3 h4
  have hlen : ("ATGTAA".toList).length = 6 := rfl
  have hj : j' = 0 ∨ j' = 3 := by omega
  rcases hj with rfl | rfl
  · exact absurd h4 (by decide)
  · omega

/-- Witness for C3 at the single candidate of `find_orfs("ATGAAATAA", 1)`. -/
theorem C3_candidate_invariants_witness :
    (let c : OrfCandidate :=
      { strand := "+", frame := 1, start := 1, «end» := 9, length := 9 };
    c ∈ find_orfs ("ATGAAATAA".toList) 1 ∧
      (c.length % 3 = 0 ∧ (1 : Int) ≤ (c.length : Int) ∧ 1 ≤ c.start ∧
        c.start ≤ c.«end» ∧ c.«end» ≤ ("ATGAAATAA".toList).length ∧
        c.length = c.«end» - c.start + 1 ∧ 0 < c.length)) :=
  ⟨List.mem_mergeSort.mpr (by decide),
    C3_candidate_invariants ("ATGAAATAA".toList) 1 _
      (List.mem_mergeSort.mpr (by decide))⟩

/-- Witness for C5 at the single reverse-strand candidate of
`find_orfs("TTATTTCAT", 1)`. -/
theorem C5_reverse_strand_coordinates_witness :
    (let c : OrfCandidate :=
      { strand := "-", frame := 1, start := 1, «end» := 9, length := 9 };
    c ∈ find_orfs ("TTATTTCAT".toList) 1 ∧
      ∃ i j, codon (reverse_complement ("TTATTTCAT".toList)) i = ATG ∧
        codon (reverse_complement ("TTATTTCAT".toList)) j ∈ STOP_CODONS ∧
        i ≤ j ∧ 3 ∣ (j - i) ∧ j + 3 ≤ ("TTATTTCAT".toList).length ∧
        c.«end» = ("TTATTTCAT".toList).length - i ∧
        c.start = ("TTATTTCAT".toList).length - (j + 3) + 1 ∧
        c.length = j + 3 - i) :=
  ⟨List.mem_mergeSort.mpr (by decide),
    C5_reverse_strand_coordinates ("TTATTTCAT".toList) 1 _
      (List.mem_mergeSort.mpr (by decide)) rfl⟩

/-- Witness for C7 on `"ACGTN"` at index 1 and the non-nucleotide `'N'`. -/
theorem C7_reverse_complement_pointwise_witness :
    (reverse_complement ("ACGTN".toList)).length = ("ACGTN".toList).length ∧
    (reverse_complement ("ACGTN".toList))[1]? =
      ("ACGTN".toList)[("ACGTN".toList).length - 1 - 1]?.map comp ∧
    comp 'N' = 'N' :=
  ⟨(C7_reverse_complement_pointwise ("ACGTN".toList)).1,
    (C7_reverse_complement_pointwise ("ACGTN".toList)).2.1 1 (by decide),
    (C7_reverse_complement_pointwise ("ACGTN".toList)).2.2 'N' (by decide)
      (by decide) (by decide) (by decide)⟩

/-- Witness for C10: raising `min_len` from 1 to 100 on `"ATGAAATAA"` filters
the length-9 candidate out. -/
theorem C10_minLen_only_filters_witness :
    find_orfs ("ATGAAATAA".toList) 100 =
      (find_orfs ("ATGAAATAA".toList) 1).filter
        (fun c => 100 ≤ (c.length : Int)) :=
  C10_minLen_only_filters ("ATGAAATAA".toList) 1 100 (by decide)

end OrfAnalyzer
